import Mathlib

/-!
Verification of the RedditX comments service against its specification.

The Go and SQL sources are embedded shallowly:

* `pkg/utils` string helpers (`TruncateString`, `SanitizeSubdomain`) become
  functions on `List Char` (one entry per byte/rune; `TruncateString` indexes
  bytes, `SanitizeSubdomain` ranges over runes — neither distinction matters
  for the properties proved here, so a single character list model is used).
* The `likes` / `comments` tables and the SQL functions `add_like`,
  `remove_like`, `soft_delete_comment_tree` become pure functions on lists of
  rows; the Go application-level operations (`LikeService.LikeComment`,
  `CommandHandler.handleCreateComment`, `buildTree`) become functions on the
  same row model, with errors as `Except`.
* The Redis-side token-bucket Lua script and the Redlock release script are
  modelled as pure state transformers (Lua numbers are exact here: every
  value involved is an integer because `capacity`, `refill_rate` and Unix
  timestamps are all `int64` on the Go side).
-/

namespace RedditX

/-! ## pkg/utils: `TruncateString` (claim C9) -/

/-- Embedding of `utils.TruncateString`.  Go strings are byte arrays;
`len` and `s[:n]` act on bytes, modelled by `List.length` / `List.take`
on a list of characters.  `maxLen` is `int` in Go but the claim restricts
it to non-negative values, so `Nat` covers exactly the claimed domain. -/
def TruncateString (s : List Char) (maxLen : Nat) : List Char :=
  if s.length ≤ maxLen then s
  else if maxLen < 3 then s.take maxLen
  else s.take (maxLen - 3) ++ ['.', '.', '.']

/-! ## pkg/utils: `SanitizeSubdomain` (claim C10) -/

/-- ASCII branch of Go `strings.ToLower`, applied rune-wise.  Non-ASCII
lowercasing is irrelevant to the claims: the subsequent filter keeps only
ASCII `a-z`, `0-9` and `-`. -/
def goToLower (c : Char) : Char :=
  if 'A' ≤ c ∧ c ≤ 'Z' then Char.ofNat (c.toNat + 32) else c

/-- Whitespace predicate used by `strings.TrimSpace` (ASCII part of
`unicode.IsSpace`; non-ASCII spaces are removed by the filter anyway). -/
def goIsSpace (c : Char) : Bool :=
  c = ' ' || c = '\t' || c = '\n' || c = '\x0d' || c = '\x0b' || c = '\x0c'

/-- Drop characters satisfying `p` from both ends of a list: the common
shape of Go `strings.TrimSpace` and `strings.Trim`. -/
def trimBy (p : Char → Bool) (l : List Char) : List Char :=
  ((l.dropWhile p).reverse.dropWhile p).reverse

/-- `strings.TrimSpace`: drop whitespace from both ends. -/
def trimSpace (l : List Char) : List Char :=
  trimBy goIsSpace l

/-- Character class kept by `SanitizeSubdomain`: `a-z`, `0-9`, `-`. -/
def isSubdomainChar (c : Char) : Bool :=
  ('a' ≤ c && c ≤ 'z') || ('0' ≤ c && c ≤ '9') || c = '-'

/-- `strings.Trim(result, "-")`: drop hyphens from both ends. -/
def trimHyphens (l : List Char) : List Char :=
  trimBy (fun c => c = '-') l

/-- Embedding of `utils.SanitizeSubdomain`: lowercase, trim whitespace,
keep only `[a-z0-9-]`, trim hyphens from both ends. -/
def SanitizeSubdomain (l : List Char) : List Char :=
  trimHyphens ((trimSpace (l.map goToLower)).filter isSubdomainChar)

/-! ## infrastructure/locks: Redlock release (claim C4) -/

/-- A single Redis node's key-value store, restricted to string values
(all the lock machinery stores are plain `SET` string entries). -/
def NodeStore := List (String × String)

/-- `GET key` on one node. -/
def nodeGet (st : NodeStore) (k : String) : Option String :=
  (List.find? (fun p => p.1 = k) st).map (fun p => p.2)

/-- `DEL key` on one node. -/
def nodeDel (st : NodeStore) (k : String) : NodeStore :=
  List.filter (fun p => p.1 ≠ k) st

/-- The compare-and-delete Lua script run by `RedLock.ReleaseLock` on one
node: delete the key only if its stored value equals the lock's token. -/
def compareAndDelete (st : NodeStore) (k v : String) : NodeStore :=
  if nodeGet st k = some v then nodeDel st k else st

/-- Key under which a lock for `resource` is stored (`fmt.Sprintf("lock:%s", ...)`). -/
def lockKey (resource : String) : String := "lock:" ++ resource

/-- Embedding of `RedLock.ReleaseLock`: run the compare-and-delete script
with the lock's value (token) on every node. -/
def ReleaseLock (nodes : List NodeStore) (resource token : String) : List NodeStore :=
  nodes.map (fun st => compareAndDelete st (lockKey resource) token)

/-! ## infrastructure/ratelimit: token bucket (claim C3) -/

/-- Stored bucket state: the `tokens` and `last_refill` hash fields. -/
structure BucketState where
  tokens : Int
  lastRefill : Int
  deriving DecidableEq, Repr

/-- Result of one run of the token-bucket Lua script plus the Go
post-processing in `TokenBucketLimiter.AllowRequest`. -/
structure RateLimitResult where
  allowed : Bool
  remaining : Int
  limit : Int
  retryAfter : Int
  state : BucketState
  deriving DecidableEq, Repr

/-- The token-bucket Lua script: read `(tokens, last_refill)` or default to
`(capacity, now)`, refill `min(capacity, tokens + elapsed * refill_rate)`,
consume `requested` tokens when available, and persist the new state.
All quantities are integral (`int64` arguments), so `Int` is exact. -/
def tokenBucketScript (capacity refillRate now requested : Int)
    (stored : Option BucketState) : Bool × Int × BucketState :=
  let tokens := (stored.map BucketState.tokens).getD capacity
  let lastRefill := (stored.map BucketState.lastRefill).getD now
  let elapsed := now - lastRefill
  let tokens := min capacity (tokens + elapsed * refillRate)
  if requested ≤ tokens then
    (true, tokens - requested, ⟨tokens - requested, now⟩)
  else
    (false, tokens, ⟨tokens, now⟩)

/-- Embedding of `TokenBucketLimiter.AllowRequest`: runs the script with
`requested = 1` and, on denial, sets
`RetryAfter = int64(1.0 / float64(refillRate))`, i.e. truncated division
(exact as `Int.tdiv` for the positive refill rates the limiter is built
with). -/
def AllowRequest (capacity refillRate now : Int)
    (stored : Option BucketState) : RateLimitResult :=
  let r := tokenBucketScript capacity refillRate now 1 stored
  { allowed := r.1
    remaining := r.2.1
    limit := capacity
    retryAfter := if r.1 then 0 else Int.tdiv 1 refillRate
    state := r.2.2 }

/-- The spec's denial formula, written from its words:
`retryAfter = ceil((cost - tokens) / refillRate)` where `tokens` is the
refilled value.  For a positive `refillRate` the ceiling of the rational
quotient is `fdiv (cost - tokens + refillRate - 1) refillRate`. -/
def specRetryAfter (cost tokensAfterRefill refillRate : Int) : Int :=
  Int.fdiv (cost - tokensAfterRefill + refillRate - 1) refillRate

/-- The refilled token count computed by the script:
`min(capacity, tokens + elapsed * refill_rate)` over the stored state, with
the documented defaults for a missing bucket. -/
def refilledTokens (capacity refillRate now : Int) (stored : Option BucketState) : Int :=
  min capacity (((stored.map BucketState.tokens).getD capacity) +
    (now - ((stored.map BucketState.lastRefill).getD now)) * refillRate)

/-! ## comments-service store model: likes and like counters (C1, C2, C7) -/

/-- The `reaction_type` enumeration from migration 005. -/
inductive Reaction
  | LIKE | LOVE | LAUGH | WOW | SAD | ANGRY
  deriving DecidableEq, Repr

/-- A row of the `likes` table (the columns the reaction operations read or
write; the surrogate `id` and analytics columns play no role in the claims
and are omitted). -/
structure LikeRow where
  tenantId : String
  commentId : String
  userId : String
  reaction : Reaction
  createdAt : Int
  deriving DecidableEq, Repr

/-- A row of the `comments` table, restricted to the columns the reaction
operations touch: `id`, `tenant_id`, `like_count`. -/
structure LCComment where
  id : String
  tenantId : String
  likeCount : Int
  deriving DecidableEq, Repr

/-- The part of the store touched by the reaction operations. -/
structure LikesDB where
  comments : List LCComment
  likes : List LikeRow
  deriving DecidableEq, Repr

/-- The `(tenant_id, comment_id, user_id)` key comparison used by the
existence checks and by `unique_likes_user_comment`. -/
def keyMatches (r : LikeRow) (t c u : String) : Bool :=
  r.tenantId = t && r.commentId = c && r.userId = u

/-- `SELECT EXISTS(SELECT 1 FROM likes WHERE ...)` for the user's reaction
row. -/
def likeExists (likes : List LikeRow) (t c u : String) : Bool :=
  likes.any (fun r => keyMatches r t c u)

/-- `SELECT like_count FROM comments WHERE id = c` (ids are primary keys,
so the first matching row is the row). -/
def lookupLikeCount (comments : List LCComment) (c : String) : Option Int :=
  (comments.find? (fun row => row.id = c)).map LCComment.likeCount

/-- Number of reaction rows referencing comment `c`
(`count(reactions where commentId = c)`), as the integer the `like_count`
column is compared against. -/
def countLikes (likes : List LikeRow) (c : String) : Int :=
  ((likes.filter (fun r => r.commentId = c)).length : Int)

/-- Result row of the SQL function `add_like`. -/
structure AddLikeResult where
  db : LikesDB
  success : Bool
  newLikeCount : Option Int
  message : String
  deriving DecidableEq, Repr

/-- Embedding of the SQL function `add_like` (migration 005): if the
user's reaction row exists, update its `reaction` and `created_at` in
place and report the current counter; otherwise insert the row and
increment the comment's `like_count` (`UPDATE ... WHERE id = c`),
reporting the updated counter. -/
def add_like (db : LikesDB) (t c u : String) (k : Reaction) (now : Int) : AddLikeResult :=
  if likeExists db.likes t c u then
    { db := { db with likes := db.likes.map (fun r =>
        if keyMatches r t c u then { r with reaction := k, createdAt := now } else r) }
      success := true
      newLikeCount := lookupLikeCount db.comments c
      message := "Reaction updated" }
  else
    let likes2 := db.likes ++ [LikeRow.mk t c u k now]
    let comments2 := db.comments.map (fun row =>
      if row.id = c then { row with likeCount := row.likeCount + 1 } else row)
    { db := LikesDB.mk comments2 likes2
      success := true
      newLikeCount := lookupLikeCount comments2 c
      message := "Like added" }

/-- Result row of the SQL function `remove_like`. -/
structure RemoveLikeResult where
  db : LikesDB
  success : Bool
  newLikeCount : Option Int
  message : String
  deriving DecidableEq, Repr

/-- Embedding of the SQL function `remove_like` (migration 005): delete
the user's reaction row if present and decrement `like_count` with
`GREATEST(like_count - 1, 0)`; if absent, report `success = false` with
the current counter ("Like not found"). -/
def remove_like (db : LikesDB) (t c u : String) : RemoveLikeResult :=
  if likeExists db.likes t c u then
    let likes2 := db.likes.filter (fun r => !(keyMatches r t c u))
    let comments2 := db.comments.map (fun row =>
      if row.id = c then { row with likeCount := max (row.likeCount - 1) 0 } else row)
    { db := LikesDB.mk comments2 likes2
      success := true
      newLikeCount := lookupLikeCount comments2 c
      message := "Like removed" }
  else
    { db := db
      success := false
      newLikeCount := lookupLikeCount db.comments c
      message := "Like not found" }

/-- Errors surfaced by `LikeService.LikeComment`. -/
inductive LikeError
  | alreadyLiked
  | commentNotFound
  deriving DecidableEq, Repr

/-- Embedding of the Go `LikeService.LikeComment`: inside one transaction,
check the reaction row's existence and fail with `ErrAlreadyLiked` if it
is there; otherwise insert the row (reaction defaults to `LIKE`) and run
`UPDATE comments SET like_count = like_count + 1 WHERE id = c AND
tenant_id = t`, failing with `ErrCommentNotFound` (and rolling back) when
no comment row was affected.  An error leaves the store unchanged because
the transaction is rolled back before commit. -/
def LikeComment (db : LikesDB) (t c u : String) (now : Int) : Except LikeError LikesDB :=
  if likeExists db.likes t c u then
    Except.error LikeError.alreadyLiked
  else
    let likes2 := db.likes ++ [LikeRow.mk t c u Reaction.LIKE now]
    let rowsAffected := (db.comments.filter (fun row => row.id = c && row.tenantId = t)).length
    let comments2 := db.comments.map (fun row =>
      if row.id = c && row.tenantId = t then { row with likeCount := row.likeCount + 1 }
      else row)
    if rowsAffected = 0 then Except.error LikeError.commentNotFound
    else Except.ok (LikesDB.mk comments2 likes2)

/-- The counter-consistency invariant: every comment row's `like_count`
equals the number of reaction rows referencing it. -/
def CounterInv (db : LikesDB) : Prop :=
  ∀ row ∈ db.comments, row.likeCount = countLikes db.likes row.id

/-- The `unique_likes_user_comment` constraint: at most one reaction row
per `(tenant_id, comment_id, user_id)` triple. -/
def UniqueReactions (likes : List LikeRow) : Prop :=
  List.Pairwise (fun r1 r2 =>
    ¬(r1.tenantId = r2.tenantId ∧ r1.commentId = r2.commentId ∧ r1.userId = r2.userId)) likes

instance (db : LikesDB) : Decidable (CounterInv db) := by
  unfold CounterInv
  infer_instance

instance (likes : List LikeRow) : Decidable (UniqueReactions likes) := by
  unfold UniqueReactions
  infer_instance

/-! ## comments-service store model: the comment hierarchy (C5, C6) -/

/-- The `comment_status` enumeration from migration 004. -/
inductive CommentStatus
  | ACTIVE | DELETED | FLAGGED | SPAM | PENDING
  deriving DecidableEq, Repr

/-- A row of the `comments` table, restricted to the columns involved in
creation, hierarchy maintenance and soft deletion (`updated_at`, author
and content columns play no role in the claims and are omitted). -/
structure TComment where
  id : String
  tenantId : String
  parentId : Option String
  depth : Int
  path : String
  replyCount : Int
  status : CommentStatus
  deletedAt : Option Int
  deriving DecidableEq, Repr

/-- `listStarts pat s`: `pat` is a prefix of `s`, character by character. -/
def listStarts : List Char → List Char → Bool
  | [], _ => true
  | _ :: _, [] => false
  | a :: as, b :: bs => a = b && listStarts as bs

/-- `s LIKE (pat || '%')` for a literal `pat`: `s` starts with `pat`
(UUID ids and the paths built from them contain no `%` or `_`
wildcards). -/
def strStarts (pat s : String) : Bool := listStarts pat.data s.data

/-- The fields of `CreateCommentCommand` that determine hierarchy. -/
structure CreateCommentCommand where
  id : String
  tenantId : String
  parentId : Option String
  deriving DecidableEq, Repr

/-- Errors of the comment-creation transaction: `ErrParentNotFound`, or a
check-constraint violation reported by the store on insert. -/
inductive CreateError
  | parentNotFound
  | checkViolation
  deriving DecidableEq, Repr

/-- Parent lookup: `SELECT depth, path FROM comments WHERE id = $1 AND
tenant_id = $2 AND deleted_at IS NULL FOR UPDATE`. -/
def findParent (db : List TComment) (pid tid : String) : Option TComment :=
  db.find? (fun c => c.id = pid && c.tenantId = tid && c.deletedAt = none)

/-- The depth check constraints of migration 004 on a row about to be
inserted (`comments_depth_nonnegative`, `comments_depth_max`); a
violation raises and aborts the transaction. -/
def depthChecksOK (c : TComment) : Bool := 0 ≤ c.depth && c.depth ≤ 100

/-- Embedding of `CommandHandler.handleCreateComment` (command validation
and the audit-log insert are orthogonal to the hierarchy claims and
omitted): for a reply, read the live parent row in the tenant (else
`ErrParentNotFound`), compute `depth = parentDepth + 1` and
`path = parentPath == "" ? parentID : parentPath + "." + parentID`,
increment the parent's `reply_count`, and insert the new row; for a root
comment, insert with `depth = 0` and `path = ""`.  The insert is subject
to the store's depth check constraints; a violation rolls the whole
transaction back, leaving the table unchanged. -/
def handleCreateComment (db : List TComment) (cmd : CreateCommentCommand) :
    Except CreateError (List TComment) :=
  match cmd.parentId with
  | none =>
      if depthChecksOK
          (TComment.mk cmd.id cmd.tenantId none 0 "" 0 CommentStatus.ACTIVE none) then
        Except.ok (db ++
          [TComment.mk cmd.id cmd.tenantId none 0 "" 0 CommentStatus.ACTIVE none])
      else Except.error CreateError.checkViolation
  | some pid =>
      match findParent db pid cmd.tenantId with
      | none => Except.error CreateError.parentNotFound
      | some parent =>
          if depthChecksOK
              (TComment.mk cmd.id cmd.tenantId (some pid) (parent.depth + 1)
                (if parent.path = "" then pid else parent.path ++ "." ++ pid)
                0 CommentStatus.ACTIVE none) then
            Except.ok ((db.map (fun c =>
              if c.id = pid then { c with replyCount := c.replyCount + 1 } else c)) ++
              [TComment.mk cmd.id cmd.tenantId (some pid) (parent.depth + 1)
                (if parent.path = "" then pid else parent.path ++ "." ++ pid)
                0 CommentStatus.ACTIVE none])
          else Except.error CreateError.checkViolation

/-- Embedding of the SQL function `soft_delete_comment_tree` (migration
004): one range update marking as `DELETED`, with a deletion timestamp,
every row whose `id` equals the target or whose `path` matches
`LIKE (SELECT path || '.' || id || '%' ...)` for the target.  When no row
has the target id, the subquery yields SQL `NULL`, the `LIKE` clause is
unknown, and no row is updated.  (`updated_at` is also set by the source;
it is not modelled.) -/
def soft_delete_comment_tree (db : List TComment) (cid : String) (now : Int) :
    List TComment :=
  match db.find? (fun c => c.id = cid) with
  | none => db
  | some target =>
      db.map (fun c =>
        if c.id = cid || strStarts (target.path ++ "." ++ cid) c.path then
          { c with deletedAt := some now, status := CommentStatus.DELETED }
        else c)

/-! ## query-side tree build: `buildTree` (C8) -/

/-- The fields of a `CommentReadModel` row that drive the tree build. -/
structure CommentReadModel where
  id : String
  parentId : Option String
  deriving DecidableEq, Repr

/-- A `CommentReadModel` value as it evolves inside `buildTree`: identity,
parent reference, and the `Replies` slice. -/
inductive TreeNode
  | node (id : String) (parentId : Option String) (replies : List TreeNode)

def TreeNode.nid : TreeNode → String
  | .node i _ _ => i

def TreeNode.pid : TreeNode → Option String
  | .node _ p _ => p

def TreeNode.replies : TreeNode → List TreeNode
  | .node _ _ r => r

/-- `parent.Replies = append(parent.Replies, child)` — the child is
appended by value. -/
def TreeNode.addReply (t child : TreeNode) : TreeNode :=
  match t with
  | .node i p r => .node i p (r ++ [child])

/-- The index stored in `commentMap` for an id.  The Go map is filled in
ascending index order over the original slice (ids never change later),
so the last occurrence of an id wins. -/
def lastIdxOf : List CommentReadModel → String → Option Nat
  | [], _ => none
  | c :: cs, i =>
      match lastIdxOf cs i with
      | some j => some (j + 1)
      | none => if c.id = i then some 0 else none

/-- One iteration of the second loop of `buildTree` at index `i`, over the
state (working node array, accumulated roots).  A root is appended by
value to the roots; a child is appended by value to its parent's `Replies`
inside the working array (pointers into the backing array are modelled as
indices), and skipped when the parent id is not in the map. -/
def buildStep (cs : List CommentReadModel) (st : List TreeNode × List TreeNode)
    (i : Nat) : List TreeNode × List TreeNode :=
  match st.1.get? i with
  | none => st
  | some cur =>
      match cur.pid with
      | none => (st.1, st.2 ++ [cur])
      | some pid =>
          match lastIdxOf cs pid with
          | none => st
          | some p =>
              match st.1.get? p with
              | none => st
              | some par => (st.1.set p (par.addReply cur), st.2)

/-- The state of `buildTree` after the first `k` iterations of its second
loop; the working array starts as the scanned rows with empty `Replies`. -/
def buildLoop (cs : List CommentReadModel) : Nat → List TreeNode × List TreeNode
  | 0 => (cs.map (fun c => TreeNode.node c.id c.parentId []), [])
  | k + 1 => buildStep cs (buildLoop cs k) k

/-- Embedding of the Go `buildTree`: index every node by id, then walk the
list once, collecting parentless nodes into `roots` and attaching each
child to its parent's `Replies`.  Go's value semantics are kept explicit:
what is appended to `roots` or to a parent is the node's value at that
moment, so later writes to the array element are not reflected in the
copy. -/
def buildTree (cs : List CommentReadModel) : List TreeNode :=
  (buildLoop cs cs.length).2

/-- `containsPair f p c`: somewhere in the tree, a node with id `p` has a
direct reply with id `c`. -/
def TreeNode.containsPair : TreeNode → String → String → Bool
  | .node i _ rs, p, c =>
      (i = p && rs.any (fun r => r.nid = c)) ||
      rs.attach.any (fun r => r.1.containsPair p c)
decreasing_by
  have := List.sizeOf_lt_of_mem r.2
  simp only [TreeNode.node.sizeOf_spec]
  omega

/-- `containsPair` over the returned forest. -/
def forestContainsPair (f : List TreeNode) (p c : String) : Bool :=
  f.any (fun t => t.containsPair p c)

/-- The parent/child pair `(p, c)` is visible inside slot `j` of the
working array. -/
def slotPair (A : List TreeNode) (j : Nat) (p c : String) : Prop :=
  ∃ t, A.get? j = some t ∧ t.containsPair p c = true

/-- The ordering/completeness condition under which the Go `buildTree`
returns the full forest: every comment's parent reference points at an id
registered in the map at a strictly later index (children before
parents — the shape produced by the handler's `ORDER BY created_at DESC`,
since a child is always created after its parent). -/
def childrenBeforeParents (cs : List CommentReadModel) : Bool :=
  (List.range cs.length).all (fun i =>
    match cs.get? i with
    | none => true
    | some c =>
        match c.parentId with
        | none => true
        | some p =>
            match lastIdxOf cs p with
            | none => false
            | some j => decide (i < j))

end RedditX

namespace RedditX

/-! ## Theorems for claim C9 -/

/-- C9: `TruncateString` never returns more than `maxLen` characters; an
input that already fits is returned unchanged; for `maxLen ≥ 3` an
over-long input becomes its first `maxLen - 3` bytes followed by
`"..."`, of length exactly `maxLen`.  (In the `List` model the Go slice
expressions are total, which is faithful because every slice bound taken
by the source is within range, as the branch conditions recorded here
show.) -/
theorem truncateString_spec (s : List Char) (maxLen : Nat) :
    (TruncateString s maxLen).length ≤ maxLen ∧
    (s.length ≤ maxLen → TruncateString s maxLen = s) ∧
    (3 ≤ maxLen → maxLen < s.length →
      TruncateString s maxLen = s.take (maxLen - 3) ++ ['.', '.', '.'] ∧
      (TruncateString s maxLen).length = maxLen) := by
  unfold TruncateString
  by_cases h1 : s.length ≤ maxLen
  · simp [h1]
  · rw [if_neg h1]
    push_neg at h1
    by_cases h2 : maxLen < 3
    · rw [if_pos h2]
      refine ⟨?_, fun h => absurd h (by omega), fun h _ => absurd h (by omega)⟩
      simp [List.length_take]
    · rw [if_neg h2]
      push_neg at h2
      refine ⟨?_, fun h => absurd h (by omega), fun _ _ => ⟨rfl, ?_⟩⟩ <;>
        (simp [List.length_take]; omega)

/-- Witness instantiating `truncateString_spec` on a concrete input and
discharging its conditional parts. -/
theorem truncateString_spec_witness :
    TruncateString ['h', 'e', 'l', 'l', 'o'] 4 = ['h', '.', '.', '.'] ∧
    (TruncateString ['h', 'e', 'l', 'l', 'o'] 4).length = 4 := by
  have h := (truncateString_spec ['h', 'e', 'l', 'l', 'o'] 4).2.2
    (by decide) (by decide)
  exact ⟨by rw [h.1]; decide, h.2⟩

/-! ## Theorems for claim C10 -/

theorem head?_dropWhile_false (p : Char → Bool) :
    ∀ (l : List Char) (c : Char), (l.dropWhile p).head? = some c → p c = false := by
  intro l
  induction l with
  | nil => intro c h; simp [List.dropWhile] at h
  | cons a as ih =>
    intro c h
    rw [List.dropWhile_cons] at h
    by_cases hp : p a
    · exact ih c (by simpa [hp] using h)
    · rw [if_neg hp] at h
      simp only [List.head?_cons, Option.some.injEq] at h
      subst h
      simpa using hp

theorem trimBy_sublist (p : Char → Bool) (l : List Char) :
    List.Sublist (trimBy p l) l := by
  have h1 : List.Sublist ((l.dropWhile p).reverse.dropWhile p) (l.dropWhile p).reverse :=
    List.dropWhile_sublist p
  have h2 := h1.reverse
  rw [List.reverse_reverse] at h2
  exact h2.trans (List.dropWhile_sublist p)

theorem trimBy_getLast? (p : Char → Bool) (l : List Char) (c : Char)
    (h : (trimBy p l).getLast? = some c) : p c = false := by
  unfold trimBy at h
  rw [List.getLast?_reverse] at h
  exact head?_dropWhile_false p _ c h

theorem trimBy_head? (p : Char → Bool) (l : List Char) (c : Char)
    (h : (trimBy p l).head? = some c) : p c = false := by
  unfold trimBy at h
  rw [List.head?_reverse] at h
  obtain ⟨t, ht⟩ := List.dropWhile_suffix (l := (l.dropWhile p).reverse) p
  have hne : (l.dropWhile p).reverse.dropWhile p ≠ [] := by
    intro hnil; rw [hnil] at h; simp at h
  have h2 : (l.dropWhile p).reverse.getLast? = some c := by
    rw [← ht, List.getLast?_append_of_ne_nil t hne]; exact h
  rw [List.getLast?_reverse] at h2
  exact head?_dropWhile_false p l c h2

theorem dropWhile_eq_self_of_head (p : Char → Bool) (l : List Char)
    (h : ∀ c, l.head? = some c → p c = false) : l.dropWhile p = l := by
  cases l with
  | nil => rfl
  | cons a as => rw [List.dropWhile_cons, if_neg (by simp [h a rfl])]

theorem trimBy_eq_self (p : Char → Bool) (l : List Char)
    (hh : ∀ c, l.head? = some c → p c = false)
    (hl : ∀ c, l.getLast? = some c → p c = false) : trimBy p l = l := by
  unfold trimBy
  rw [dropWhile_eq_self_of_head p l hh,
    dropWhile_eq_self_of_head p l.reverse
      (fun c hc => hl c (by rwa [List.head?_reverse] at hc)),
    List.reverse_reverse]

theorem subdomainChar_toLower (c : Char) (h : isSubdomainChar c = true) :
    goToLower c = c := by
  unfold goToLower
  rw [if_neg]
  rintro ⟨h1, h2⟩
  unfold isSubdomainChar at h
  simp only [Bool.or_eq_true, Bool.and_eq_true, decide_eq_true_eq] at h
  rcases h with (⟨ha, _⟩ | ⟨_, h9⟩) | rfl
  · exact absurd (le_trans ha h2) (by decide)
  · exact absurd (le_trans h1 h9) (by decide)
  · exact absurd h1 (by decide)

theorem subdomainChar_not_space (c : Char) (h : isSubdomainChar c = true) :
    goIsSpace c = false := by
  cases hs : goIsSpace c
  · rfl
  · exfalso
    unfold goIsSpace at hs
    simp only [Bool.or_eq_true, decide_eq_true_eq] at hs
    rcases hs with ((((rfl | rfl) | rfl) | rfl) | rfl) | rfl <;>
      exact absurd h (by decide)

theorem map_toLower_eq_self (l : List Char)
    (h : ∀ c ∈ l, isSubdomainChar c = true) : l.map goToLower = l := by
  conv_rhs => rw [← List.map_id l]
  exact List.map_congr_left (fun c hc => subdomainChar_toLower c (h c hc))

/-- C10: `SanitizeSubdomain` outputs only `[a-z0-9-]` characters, with no
leading or trailing hyphen; the output is a subsequence of the lowercased
input; and the function is idempotent. -/
theorem sanitizeSubdomain_spec (l : List Char) :
    (∀ c ∈ SanitizeSubdomain l, isSubdomainChar c = true) ∧
    (∀ c, (SanitizeSubdomain l).head? = some c → c ≠ '-') ∧
    (∀ c, (SanitizeSubdomain l).getLast? = some c → c ≠ '-') ∧
    List.Sublist (SanitizeSubdomain l) (l.map goToLower) ∧
    SanitizeSubdomain (SanitizeSubdomain l) = SanitizeSubdomain l := by
  have hmem : ∀ c ∈ SanitizeSubdomain l, isSubdomainChar c = true := by
    intro c hc
    have hc2 := (trimBy_sublist (fun c => c = '-') _).subset hc
    exact (List.mem_filter.mp hc2).2
  have hh : ∀ c, (SanitizeSubdomain l).head? = some c → c ≠ '-' := by
    intro c hc
    have := trimBy_head? (fun c => c = '-') _ c hc
    simpa using this
  have hl : ∀ c, (SanitizeSubdomain l).getLast? = some c → c ≠ '-' := by
    intro c hc
    have := trimBy_getLast? (fun c => c = '-') _ c hc
    simpa using this
  refine ⟨hmem, hh, hl, ?_, ?_⟩
  · exact ((trimBy_sublist _ _).trans (List.filter_sublist _)).trans
      (trimBy_sublist goIsSpace (l.map goToLower))
  · show trimHyphens ((trimSpace ((SanitizeSubdomain l).map goToLower)).filter
      isSubdomainChar) = SanitizeSubdomain l
    rw [map_toLower_eq_self _ hmem]
    rw [show trimSpace (SanitizeSubdomain l) = SanitizeSubdomain l from
      trimBy_eq_self goIsSpace _
        (fun c hc => subdomainChar_not_space c
          (hmem c (List.mem_of_mem_head? (by rw [hc]; rfl))))
        (fun c hc => subdomainChar_not_space c
          (hmem c (List.mem_of_mem_getLast? (by rw [hc]; rfl))))]
    rw [List.filter_eq_self.mpr hmem]
    exact trimBy_eq_self _ _
      (fun c hc => by simpa using hh c hc)
      (fun c hc => by simpa using hl c hc)

/-! ## Theorems for claim C4 -/

/-- C4: `ReleaseLock` runs the compare-and-delete script on every node; a
node whose stored value under the lock key differs from the releasing
lock's token is left unchanged, and a node whose stored value equals the
token has the entry deleted. -/
theorem releaseLock_guarded_by_token (nodes : List NodeStore) (resource token : String) :
    ReleaseLock nodes resource token =
      nodes.map (fun st => compareAndDelete st (lockKey resource) token) ∧
    (∀ st : NodeStore, nodeGet st (lockKey resource) ≠ some token →
      compareAndDelete st (lockKey resource) token = st) ∧
    (∀ st : NodeStore, nodeGet st (lockKey resource) = some token →
      nodeGet (compareAndDelete st (lockKey resource) token) (lockKey resource) = none) := by
  refine ⟨rfl, ?_, ?_⟩
  · intro st h
    unfold compareAndDelete
    rw [if_neg h]
  · intro st h
    unfold compareAndDelete
    rw [if_pos h]
    have hfind : List.find? (fun p => p.1 = lockKey resource)
        (nodeDel st (lockKey resource)) = none := by
      rw [List.find?_eq_none]
      intro x hx
      have hx2 := (List.mem_filter.mp hx).2
      simpa using hx2
    simp [nodeGet, hfind]

/-- Witness for `releaseLock_guarded_by_token` on a two-node system where
one node holds the caller's token and the other a different holder's. -/
theorem releaseLock_guarded_by_token_witness :
    compareAndDelete [(lockKey "r", "other")] (lockKey "r") "tok" =
      [(lockKey "r", "other")] ∧
    nodeGet (compareAndDelete [(lockKey "r", "tok")] (lockKey "r") "tok")
      (lockKey "r") = none := by
  have h := releaseLock_guarded_by_token
    [[(lockKey "r", "tok")], [(lockKey "r", "other")]] "r" "tok"
  exact ⟨h.2.1 _ (by decide), h.2.2 _ (by decide)⟩

/-! ## Theorems for claim C3 -/

/-- C3 (amended): each `AllowRequest` call refills the bucket to
`min(capacity, tokens + elapsed * refillRate)` and allows the request iff
one token (the only cost the Go caller ever requests) is available, in
which case it is subtracted and persisted with the new timestamp;
otherwise the refilled value is persisted unchanged and the denial carries
`retryAfter = int64(1.0/refillRate)` — a truncated constant, not the
spec's `ceil((cost - tokens)/refillRate)`. -/
theorem allowRequest_spec (capacity refillRate now : Int) (stored : Option BucketState) :
    ((AllowRequest capacity refillRate now stored).allowed = true ↔
      1 ≤ refilledTokens capacity refillRate now stored) ∧
    ((AllowRequest capacity refillRate now stored).allowed = true →
      (AllowRequest capacity refillRate now stored).state =
        ⟨refilledTokens capacity refillRate now stored - 1, now⟩ ∧
      (AllowRequest capacity refillRate now stored).remaining =
        refilledTokens capacity refillRate now stored - 1 ∧
      (AllowRequest capacity refillRate now stored).retryAfter = 0) ∧
    ((AllowRequest capacity refillRate now stored).allowed = false →
      (AllowRequest capacity refillRate now stored).state =
        ⟨refilledTokens capacity refillRate now stored, now⟩ ∧
      (AllowRequest capacity refillRate now stored).remaining =
        refilledTokens capacity refillRate now stored ∧
      (AllowRequest capacity refillRate now stored).retryAfter = Int.tdiv 1 refillRate) := by
  by_cases h : 1 ≤ refilledTokens capacity refillRate now stored
  all_goals
    simp only [refilledTokens] at h
    simp [AllowRequest, tokenBucketScript, refilledTokens, h]

/-- Witness for `allowRequest_spec`: a fresh bucket with capacity 5 and
refill rate 1 admits the first request and stores 4 tokens. -/
theorem allowRequest_spec_witness :
    (AllowRequest 5 1 10 none).allowed = true ∧
    (AllowRequest 5 1 10 none).state = BucketState.mk 4 10 := by
  have h := allowRequest_spec 5 1 10 none
  have ha : (AllowRequest 5 1 10 none).allowed = true := h.1.mpr (by decide)
  exact ⟨ha, (h.2.1 ha).1⟩

/-- C3 counterexample: with capacity 1 and refill rate 2 tokens/second, the
first call on an empty bucket is allowed and persists zero tokens; an
immediately following call is denied with `retryAfter = 0`, while the
claim's formula `ceil((cost - tokens)/refillRate)` yields 1. -/
theorem allowRequest_retryAfter_counterexample :
    (AllowRequest 1 2 0 none).allowed = true ∧
    (AllowRequest 1 2 0 none).state = BucketState.mk 0 0 ∧
    (AllowRequest 1 2 0 (some (BucketState.mk 0 0))).allowed = false ∧
    (AllowRequest 1 2 0 (some (BucketState.mk 0 0))).retryAfter = 0 ∧
    specRetryAfter 1 (refilledTokens 1 2 0 (some (BucketState.mk 0 0))) 2 = 1 ∧
    (0 : Int) ≠ 1 := by decide

/-! ## Counting lemmas for the reaction operations -/

theorem keyMatches_triple (r : LikeRow) (t c u : String)
    (h : keyMatches r t c u = true) :
    r.tenantId = t ∧ r.commentId = c ∧ r.userId = u := by
  unfold keyMatches at h
  simp only [Bool.and_eq_true, decide_eq_true_eq] at h
  exact ⟨h.1.1, h.1.2, h.2⟩

theorem countLikes_map (likes : List LikeRow) (f : LikeRow → LikeRow)
    (hf : ∀ r, (f r).commentId = r.commentId) (x : String) :
    countLikes (likes.map f) x = countLikes likes x := by
  unfold countLikes
  congr 1
  induction likes with
  | nil => rfl
  | cons a as ih =>
    rw [List.map_cons, List.filter_cons, List.filter_cons]
    simp only [hf a]
    by_cases h : a.commentId = x <;> simp [h, ih]

theorem countLikes_append_single (likes : List LikeRow) (row : LikeRow) (x : String) :
    countLikes (likes ++ [row]) x =
      countLikes likes x + (if row.commentId = x then 1 else 0) := by
  unfold countLikes
  rw [List.filter_append]
  by_cases h : row.commentId = x <;>
    simp [List.filter_cons, h, List.length_append]

theorem countLikes_filter_ne (likes : List LikeRow) (t c u x : String) (hx : x ≠ c) :
    countLikes (likes.filter (fun r => !(keyMatches r t c u))) x = countLikes likes x := by
  unfold countLikes
  congr 1
  rw [List.filter_filter]
  refine congrArg List.length (List.filter_congr ?_)
  intro r _
  by_cases hk : keyMatches r t c u
  · have hc := (keyMatches_triple r t c u hk).2.1
    have hrx : (r.commentId = x) = False := by
      simp [hc]
      exact fun h => hx h.symm
    simp [hk, hrx]
  · simp [hk]

theorem filter_split_nat (likes : List LikeRow) (t c u : String) :
    (List.filter (fun r => r.commentId = c)
        (List.filter (fun r => !(keyMatches r t c u)) likes)).length +
      (List.filter (fun r => keyMatches r t c u) likes).length =
    (List.filter (fun r => r.commentId = c) likes).length := by
  induction likes with
  | nil => rfl
  | cons a as ih =>
    by_cases hk : keyMatches a t c u
    · have hc := (keyMatches_triple a t c u hk).2.1
      rw [List.filter_cons, List.filter_cons, if_neg (by simp [hk]),
        if_pos (by simp [hk]), List.filter_cons, if_pos (by simp [hc])]
      simp only [List.length_cons]
      omega
    · rw [List.filter_cons, List.filter_cons, if_pos (by simp [hk]),
        if_neg (by simp [hk]), List.filter_cons, List.filter_cons]
      by_cases h : a.commentId = c
      · rw [if_pos (by simp [h]), if_pos (by simp [h])]
        simp only [List.length_cons]
        omega
      · rw [if_neg (by simp [h]), if_neg (by simp [h])]
        exact ih

theorem countLikes_filter_split (likes : List LikeRow) (t c u : String) :
    countLikes likes c =
      countLikes (likes.filter (fun r => !(keyMatches r t c u))) c +
      ((likes.filter (fun r => keyMatches r t c u)).length : Int) := by
  unfold countLikes
  have h := filter_split_nat likes t c u
  omega

theorem matched_unique (likes : List LikeRow) (t c u : String)
    (hex : likeExists likes t c u = true) (huniq : UniqueReactions likes) :
    (likes.filter (fun r => keyMatches r t c u)).length = 1 := by
  induction likes with
  | nil => simp [likeExists] at hex
  | cons a as ih =>
    rcases List.pairwise_cons.mp huniq with ⟨ha, htail⟩
    rw [List.filter_cons]
    by_cases hk : keyMatches a t c u
    · have hanil : as.filter (fun r => keyMatches r t c u) = [] := by
        rw [List.filter_eq_nil_iff]
        intro r hr hkr
        have h1 := keyMatches_triple a t c u hk
        have h2 := keyMatches_triple r t c u (by simpa using hkr)
        exact ha r hr ⟨h1.1.trans h2.1.symm, h1.2.1.trans h2.2.1.symm,
          h1.2.2.trans h2.2.2.symm⟩
      simp [hk, hanil]
    · have hex2 : likeExists as t c u = true := by
        unfold likeExists at hex ⊢
        simpa [List.any_cons, hk] using hex
      simp [hk, ih hex2 htail]

theorem countLikes_pos_of_exists (likes : List LikeRow) (t c u : String)
    (hex : likeExists likes t c u = true) : 1 ≤ countLikes likes c := by
  unfold likeExists at hex
  rw [List.any_eq_true] at hex
  obtain ⟨r, hr, hk⟩ := hex
  have hc := (keyMatches_triple r t c u (by simpa using hk)).2.1
  have hmem : r ∈ likes.filter (fun r => r.commentId = c) :=
    List.mem_filter.mpr ⟨hr, by simp [hc]⟩
  have hlen : 0 < (likes.filter (fun r => r.commentId = c)).length :=
    List.length_pos.mpr (List.ne_nil_of_mem hmem)
  unfold countLikes
  omega

theorem lookupLikeCount_map_if (comments : List LCComment) (c : String) (g : Int → Int) :
    lookupLikeCount (comments.map (fun row =>
      if row.id = c then { row with likeCount := g row.likeCount } else row)) c =
    (lookupLikeCount comments c).map g := by
  unfold lookupLikeCount
  induction comments with
  | nil => rfl
  | cons a as ih =>
    by_cases h : a.id = c
    · simp [List.find?_cons, h]
    · simpa [List.find?_cons, h] using ih

theorem likeExists_after_filter (likes : List LikeRow) (t c u : String) :
    likeExists (likes.filter (fun r => !(keyMatches r t c u))) t c u = false := by
  unfold likeExists
  rw [List.any_eq_false]
  intro r hr
  have h2 := (List.mem_filter.mp hr).2
  simpa using h2

/-! ## Theorems for claim C1 -/

/-- C1: the counter-consistency invariant — every comment row's
`like_count` equals the number of reaction rows referencing it — is
preserved by `add_like`, by `remove_like`, and by every successful
`LikeComment` (failed `LikeComment` calls roll back and change nothing).
The hypotheses embody the store's own constraints:
`unique_likes_user_comment` and the primary key on `comments.id`. -/
theorem reaction_ops_preserve_counter (db : LikesDB) (t c u : String)
    (k : Reaction) (now : Int)
    (huniq : UniqueReactions db.likes)
    (hnodup : (db.comments.map LCComment.id).Nodup)
    (hinv : CounterInv db) :
    CounterInv (add_like db t c u k now).db ∧
    CounterInv (remove_like db t c u).db ∧
    (∀ db2, LikeComment db t c u now = Except.ok db2 → CounterInv db2) := by
  refine ⟨?_, ?_, ?_⟩
  · unfold add_like
    by_cases hex : likeExists db.likes t c u
    · rw [if_pos hex]
      intro row hrow
      rw [countLikes_map _ _ (fun r => by split <;> rfl)]
      exact hinv row hrow
    · rw [if_neg hex]
      intro row2 hrow2
      simp only [List.mem_map] at hrow2
      obtain ⟨row, hrow, rfl⟩ := hrow2
      have hrc := hinv row hrow
      by_cases hid : row.id = c
      · subst hid
        rw [if_pos rfl, countLikes_append_single]
        show row.likeCount + 1 = countLikes db.likes row.id + _
        rw [hrc]
        simp
      · rw [if_neg hid, countLikes_append_single, hrc]
        rw [if_neg (fun h => hid h.symm)]
        simp
  · unfold remove_like
    by_cases hex : likeExists db.likes t c u
    · rw [if_pos hex]
      intro row2 hrow2
      simp only [List.mem_map] at hrow2
      obtain ⟨row, hrow, rfl⟩ := hrow2
      have hrc := hinv row hrow
      by_cases hid : row.id = c
      · subst hid
        rw [if_pos rfl]
        have hpos := countLikes_pos_of_exists db.likes t row.id u hex
        have hm := matched_unique db.likes t row.id u hex huniq
        have hsplit := countLikes_filter_split db.likes t row.id u
        show max (row.likeCount - 1) 0 =
          countLikes (db.likes.filter (fun r => !(keyMatches r t row.id u))) row.id
        rw [max_eq_left (by omega)]
        omega
      · rw [if_neg hid]
        show row.likeCount =
          countLikes (db.likes.filter (fun r => !(keyMatches r t c u))) row.id
        rw [countLikes_filter_ne db.likes t c u row.id hid]
        exact hrc
    · rw [if_neg hex]
      exact hinv
  · intro db2 hok
    unfold LikeComment at hok
    by_cases hex : likeExists db.likes t c u
    · rw [if_pos hex] at hok
      exact absurd hok (by simp)
    · rw [if_neg hex] at hok
      by_cases hra :
          (db.comments.filter (fun row => row.id = c && row.tenantId = t)).length = 0
      · rw [if_pos hra] at hok
        exact absurd hok (by simp)
      · rw [if_neg hra] at hok
        simp only [Except.ok.injEq] at hok
        subst hok
        have hfne : db.comments.filter (fun row => row.id = c && row.tenantId = t) ≠ [] := by
          intro h0
          rw [h0] at hra
          exact hra rfl
        obtain ⟨row0, hr0⟩ := List.exists_mem_of_ne_nil _ hfne
        obtain ⟨hr0mem, hr0p⟩ := List.mem_filter.mp hr0
        simp only [Bool.and_eq_true, decide_eq_true_eq] at hr0p
        intro row2 hrow2
        simp only [List.mem_map] at hrow2
        obtain ⟨row, hrow, rfl⟩ := hrow2
        have hrc := hinv row hrow
        by_cases hid : row.id = c
        · have heq : row = row0 :=
            List.inj_on_of_nodup_map hnodup hrow hr0mem (by rw [hid, hr0p.1])
          have ht : row.tenantId = t := heq ▸ hr0p.2
          subst hid
          rw [if_pos (by simp [ht]), countLikes_append_single]
          show row.likeCount + 1 = countLikes db.likes row.id + _
          rw [hrc]
          simp
        · rw [if_neg (by simp [hid]), countLikes_append_single, hrc]
          rw [if_neg (fun h => hid h.symm)]
          simp

/-- Witness for `reaction_ops_preserve_counter` on a one-comment store
holding one reaction. -/
theorem reaction_ops_preserve_counter_witness :
    CounterInv (add_like
      (LikesDB.mk [LCComment.mk "c1" "t1" 1]
        [LikeRow.mk "t1" "c1" "u1" Reaction.LIKE 0])
      "t1" "c1" "u2" Reaction.LOVE 7).db ∧
    CounterInv (remove_like
      (LikesDB.mk [LCComment.mk "c1" "t1" 1]
        [LikeRow.mk "t1" "c1" "u1" Reaction.LIKE 0])
      "t1" "c1" "u1").db := by
  have h := reaction_ops_preserve_counter
    (LikesDB.mk [LCComment.mk "c1" "t1" 1] [LikeRow.mk "t1" "c1" "u1" Reaction.LIKE 0])
    "t1" "c1" "u2" Reaction.LOVE 7
    (by decide) (by decide) (by decide)
  have h2 := reaction_ops_preserve_counter
    (LikesDB.mk [LCComment.mk "c1" "t1" 1] [LikeRow.mk "t1" "c1" "u1" Reaction.LIKE 0])
    "t1" "c1" "u1" Reaction.LOVE 7
    (by decide) (by decide) (by decide)
  exact ⟨h.1, h2.2.1⟩

/-! ## Theorems for claim C2 -/

/-- C2 counterexample: on a store where user `u1` already has a reaction
row for comment `c1`, the Go AddReaction path (`LikeService.LikeComment`)
fails with `ErrAlreadyLiked` instead of updating the kind in place and
returning the counter. -/
theorem addReaction_existing_row_fails :
    likeExists [LikeRow.mk "t1" "c1" "u1" Reaction.LIKE 0] "t1" "c1" "u1" = true ∧
    LikeComment
      (LikesDB.mk [LCComment.mk "c1" "t1" 1] [LikeRow.mk "t1" "c1" "u1" Reaction.LIKE 0])
      "t1" "c1" "u1" 5 = Except.error LikeError.alreadyLiked :=
  ⟨by decide, rfl⟩

/-- C2 (amended): when the reaction row exists, the store-side `add_like`
updates the row's kind in place (comment rows untouched, no row added or
removed) and returns the current counter unchanged, while the Go
`LikeComment` fails with `ErrAlreadyLiked`; when no row exists, `add_like`
inserts exactly one row and increments the comment's `like_count` by
exactly 1. -/
theorem addReaction_amended (db : LikesDB) (t c u : String) (k : Reaction) (now : Int) :
    (likeExists db.likes t c u = true →
      (add_like db t c u k now).db.comments = db.comments ∧
      (add_like db t c u k now).newLikeCount = lookupLikeCount db.comments c ∧
      (add_like db t c u k now).db.likes = db.likes.map (fun r =>
        if keyMatches r t c u then { r with reaction := k, createdAt := now } else r) ∧
      (add_like db t c u k now).db.likes.length = db.likes.length ∧
      LikeComment db t c u now = Except.error LikeError.alreadyLiked) ∧
    (likeExists db.likes t c u = false →
      (add_like db t c u k now).db.likes = db.likes ++ [LikeRow.mk t c u k now] ∧
      (add_like db t c u k now).db.likes.length = db.likes.length + 1 ∧
      lookupLikeCount (add_like db t c u k now).db.comments c =
        (lookupLikeCount db.comments c).map (fun n => n + 1)) := by
  constructor
  · intro hex
    unfold add_like LikeComment
    rw [if_pos hex, if_pos hex]
    exact ⟨rfl, rfl, rfl, by simp, rfl⟩
  · intro hex
    unfold add_like
    rw [if_neg (by simp [hex])]
    refine ⟨rfl, by simp, ?_⟩
    exact lookupLikeCount_map_if db.comments c (fun n => n + 1)

/-- Witness for `addReaction_amended` covering both branches on concrete
stores. -/
theorem addReaction_amended_witness :
    (add_like
      (LikesDB.mk [LCComment.mk "c1" "t1" 1] [LikeRow.mk "t1" "c1" "u1" Reaction.LIKE 0])
      "t1" "c1" "u1" Reaction.LOVE 7).newLikeCount = some 1 ∧
    lookupLikeCount (add_like
      (LikesDB.mk [LCComment.mk "c1" "t1" 1] [LikeRow.mk "t1" "c1" "u1" Reaction.LIKE 0])
      "t1" "c1" "u2" Reaction.LIKE 7).db.comments "c1" = some 2 := by
  have h1 := (addReaction_amended
    (LikesDB.mk [LCComment.mk "c1" "t1" 1] [LikeRow.mk "t1" "c1" "u1" Reaction.LIKE 0])
    "t1" "c1" "u1" Reaction.LOVE 7).1 (by decide)
  have h2 := (addReaction_amended
    (LikesDB.mk [LCComment.mk "c1" "t1" 1] [LikeRow.mk "t1" "c1" "u1" Reaction.LIKE 0])
    "t1" "c1" "u2" Reaction.LIKE 7).2 (by decide)
  constructor
  · rw [h1.2.1]; decide
  · rw [h2.2.2]; decide

/-! ## Theorems for claim C7 -/

theorem likeExists_remove_like (db : LikesDB) (t c u : String) :
    likeExists (remove_like db t c u).db.likes t c u = false := by
  unfold remove_like
  by_cases hex : likeExists db.likes t c u
  · rw [if_pos hex]
    exact likeExists_after_filter db.likes t c u
  · rw [if_neg hex]
    simpa using hex

theorem remove_like_of_not_exists (db : LikesDB) (t c u : String)
    (hex : likeExists db.likes t c u = false) :
    remove_like db t c u =
      RemoveLikeResult.mk db false (lookupLikeCount db.comments c) "Like not found" := by
  unfold remove_like
  rw [if_neg (by simp [hex])]

/-- C7: `RemoveReaction` (`remove_like`) is idempotent from the second
call onward: a second call returns the same store with `success = false`
and the benign "Like not found" message; on an absent row the store
(including `like_count`) is unchanged and the current counter is returned
with the `NotFound`-style flag; on a present row the row set loses the
user's reaction and `like_count` becomes `GREATEST(old - 1, 0)`. -/
theorem removeReaction_idempotent (db : LikesDB) (t c u : String) :
    ((remove_like (remove_like db t c u).db t c u).db = (remove_like db t c u).db ∧
     (remove_like (remove_like db t c u).db t c u).success = false ∧
     (remove_like (remove_like db t c u).db t c u).message = "Like not found") ∧
    (likeExists db.likes t c u = false →
      remove_like db t c u =
        RemoveLikeResult.mk db false (lookupLikeCount db.comments c) "Like not found") ∧
    (likeExists db.likes t c u = true →
      likeExists (remove_like db t c u).db.likes t c u = false ∧
      lookupLikeCount (remove_like db t c u).db.comments c =
        (lookupLikeCount db.comments c).map (fun n => max (n - 1) 0)) := by
  refine ⟨?_, remove_like_of_not_exists db t c u, ?_⟩
  · rw [remove_like_of_not_exists (remove_like db t c u).db t c u
      (likeExists_remove_like db t c u)]
    exact ⟨rfl, rfl, rfl⟩
  · intro hex
    refine ⟨likeExists_remove_like db t c u, ?_⟩
    unfold remove_like
    rw [if_pos hex]
    exact lookupLikeCount_map_if db.comments c (fun n => max (n - 1) 0)

/-- Witness for `removeReaction_idempotent`: removing the only reaction
drops the counter to 0, and the second removal is the benign no-op. -/
theorem removeReaction_idempotent_witness :
    lookupLikeCount (remove_like
      (LikesDB.mk [LCComment.mk "c1" "t1" 1] [LikeRow.mk "t1" "c1" "u1" Reaction.LIKE 0])
      "t1" "c1" "u1").db.comments "c1" = some 0 ∧
    (remove_like (remove_like
      (LikesDB.mk [LCComment.mk "c1" "t1" 1] [LikeRow.mk "t1" "c1" "u1" Reaction.LIKE 0])
      "t1" "c1" "u1").db "t1" "c1" "u1").success = false := by
  have h := removeReaction_idempotent
    (LikesDB.mk [LCComment.mk "c1" "t1" 1] [LikeRow.mk "t1" "c1" "u1" Reaction.LIKE 0])
    "t1" "c1" "u1"
  constructor
  · rw [(h.2.2 (by decide)).2]; decide
  · exact h.1.2.1

/-! ## Theorems for claim C5 -/

/-- C5 counterexample: in a reachable store (root `r` with child `p`),
creating a reply to `p` yields path `"r.p"` — the parent's path joined to
the parent's id with a `"."` separator — whereas the claim's literal
concatenation of the parent's path and the parent's id is `"rp"`. -/
theorem createComment_path_separator_counterexample :
    handleCreateComment
      [TComment.mk "r" "t" none 0 "" 1 CommentStatus.ACTIVE none,
       TComment.mk "p" "t" (some "r") 1 "r" 0 CommentStatus.ACTIVE none]
      (CreateCommentCommand.mk "c" "t" (some "p")) =
      Except.ok
        [TComment.mk "r" "t" none 0 "" 1 CommentStatus.ACTIVE none,
         TComment.mk "p" "t" (some "r") 1 "r" 1 CommentStatus.ACTIVE none,
         TComment.mk "c" "t" (some "p") 2 "r.p" 0 CommentStatus.ACTIVE none] ∧
    "r.p" ≠ "r" ++ "p" :=
  ⟨rfl, by decide⟩

/-- C5 (amended): every comment created by a successful
`handleCreateComment` satisfies the tree invariants — a root comment has
depth 0 and empty path; a reply has depth = parent.depth + 1 and path
equal to the parent's path joined with the parent's id (`"."`-separated;
bare parent id when the parent is a root) — and its depth passes the
store's check constraints, in particular depth ≤ 100.  (The code has no
`ErrDepthExceeded`; an over-deep insert fails with the constraint
violation instead.) -/
theorem createComment_tree_invariants (db : List TComment)
    (cmd : CreateCommentCommand) (db2 : List TComment)
    (hok : handleCreateComment db cmd = Except.ok db2) :
    (cmd.parentId = none →
      db2 = db ++
        [TComment.mk cmd.id cmd.tenantId none 0 "" 0 CommentStatus.ACTIVE none]) ∧
    (∀ pid, cmd.parentId = some pid →
      ∃ parent, findParent db pid cmd.tenantId = some parent ∧
        db2 = (db.map (fun c =>
            if c.id = pid then { c with replyCount := c.replyCount + 1 } else c)) ++
          [TComment.mk cmd.id cmd.tenantId (some pid) (parent.depth + 1)
            (if parent.path = "" then pid else parent.path ++ "." ++ pid)
            0 CommentStatus.ACTIVE none]) ∧
    (∃ rest newC, db2 = rest ++ [newC] ∧ newC.id = cmd.id ∧
      0 ≤ newC.depth ∧ newC.depth ≤ 100) := by
  unfold handleCreateComment at hok
  split at hok
  next hp =>
    split at hok
    next hchk =>
      simp only [Except.ok.injEq] at hok
      subst hok
      refine ⟨fun _ => rfl,
        fun pid hpid => absurd (hp.symm.trans hpid) (by simp), ?_⟩
      refine ⟨db, _, rfl, rfl, le_refl 0, show (0 : Int) ≤ 100 by norm_num⟩
    next hchk => exact absurd hok (by simp)
  next pid hp =>
    match hf : findParent db pid cmd.tenantId with
    | none =>
        rw [hf] at hok
        exact absurd hok (by simp)
    | some parent =>
        rw [hf] at hok
        have hok2 : (if depthChecksOK
              (TComment.mk cmd.id cmd.tenantId (some pid) (parent.depth + 1)
                (if parent.path = "" then pid else parent.path ++ "." ++ pid)
                0 CommentStatus.ACTIVE none) then
            Except.ok ((db.map (fun c =>
              if c.id = pid then { c with replyCount := c.replyCount + 1 } else c)) ++
              [TComment.mk cmd.id cmd.tenantId (some pid) (parent.depth + 1)
                (if parent.path = "" then pid else parent.path ++ "." ++ pid)
                0 CommentStatus.ACTIVE none])
          else Except.error CreateError.checkViolation) = Except.ok db2 := hok
        by_cases hchk : depthChecksOK
            (TComment.mk cmd.id cmd.tenantId (some pid) (parent.depth + 1)
              (if parent.path = "" then pid else parent.path ++ "." ++ pid)
              0 CommentStatus.ACTIVE none) = true
        · rw [if_pos hchk] at hok2
          simp only [Except.ok.injEq] at hok2
          subst hok2
          have hbounds := hchk
          unfold depthChecksOK at hbounds
          simp only [Bool.and_eq_true, decide_eq_true_eq] at hbounds
          refine ⟨fun h => absurd (hp.symm.trans h) (Option.some_ne_none pid), ?_, ?_⟩
          · intro pid2 hpid2
            have hpp : pid = pid2 := Option.some.inj (hp.symm.trans hpid2)
            subst hpp
            exact ⟨parent, hf, rfl⟩
          · exact ⟨_, _, rfl, rfl, hbounds.1, hbounds.2⟩
        · rw [if_neg hchk] at hok2
          exact Except.noConfusion hok2

/-- Witness for `createComment_tree_invariants`: creating a root comment
in an empty store. -/
theorem createComment_tree_invariants_witness :
    handleCreateComment [] (CreateCommentCommand.mk "r" "t" none) =
      Except.ok [TComment.mk "r" "t" none 0 "" 0 CommentStatus.ACTIVE none] ∧
    [TComment.mk "r" "t" none 0 "" 0 CommentStatus.ACTIVE none] =
      [] ++ [TComment.mk "r" "t" none 0 "" 0 CommentStatus.ACTIVE none] := by
  have h := createComment_tree_invariants []
    (CreateCommentCommand.mk "r" "t" none)
    [TComment.mk "r" "t" none 0 "" 0 CommentStatus.ACTIVE none] rfl
  exact ⟨rfl, h.1 rfl⟩

/-! ## Lemmas for claim C8: the map and the loop state -/

theorem lastIdxOf_spec (cs : List CommentReadModel) (p : String) :
    ∀ j, lastIdxOf cs p = some j → ∃ c, cs.get? j = some c ∧ c.id = p := by
  induction cs with
  | nil => intro j h; exact absurd h (by simp [lastIdxOf])
  | cons a as ih =>
    intro j h
    unfold lastIdxOf at h
    rcases hl : lastIdxOf as p with _ | j0
    · rw [hl] at h
      by_cases ha : a.id = p
      · rw [if_pos ha] at h
        simp only [Option.some.injEq] at h
        subst h
        exact ⟨a, rfl, ha⟩
      · rw [if_neg ha] at h
        exact absurd h (by simp)
    · rw [hl] at h
      simp only [Option.some.injEq] at h
      subst h
      obtain ⟨c, hc, hcid⟩ := ih j0 hl
      exact ⟨c, by simpa using hc, hcid⟩

theorem lastIdxOf_lt_length (cs : List CommentReadModel) (p : String) (j : Nat)
    (h : lastIdxOf cs p = some j) : j < cs.length := by
  obtain ⟨c, hc, _⟩ := lastIdxOf_spec cs p j h
  exact (List.get?_eq_some.mp hc).1

theorem buildStep_eq_of_none (cs : List CommentReadModel)
    (st : List TreeNode × List TreeNode) (i : Nat) (h0 : st.1.get? i = none) :
    buildStep cs st i = st := by
  unfold buildStep
  rw [h0]

theorem buildStep_eq_of_get (cs : List CommentReadModel)
    (st : List TreeNode × List TreeNode) (i : Nat) (cur : TreeNode)
    (h0 : st.1.get? i = some cur) :
    buildStep cs st i =
      (match cur.pid with
       | none => (st.1, st.2 ++ [cur])
       | some q =>
           match lastIdxOf cs q with
           | none => st
           | some p =>
               match st.1.get? p with
               | none => st
               | some par => (st.1.set p (par.addReply cur), st.2)) := by
  unfold buildStep
  rw [h0]

theorem buildStep_cases (cs : List CommentReadModel)
    (st : List TreeNode × List TreeNode) (i : Nat) :
    buildStep cs st i = st ∨
    (∃ cur, st.1.get? i = some cur ∧ cur.pid = none ∧
      buildStep cs st i = (st.1, st.2 ++ [cur])) ∨
    (∃ cur q p par, st.1.get? i = some cur ∧ cur.pid = some q ∧
      lastIdxOf cs q = some p ∧ st.1.get? p = some par ∧
      buildStep cs st i = (st.1.set p (par.addReply cur), st.2)) := by
  rcases h0 : st.1.get? i with _ | cur
  · exact Or.inl (buildStep_eq_of_none cs st i h0)
  · have heq := buildStep_eq_of_get cs st i cur h0
    rcases hp : cur.pid with _ | q
    · rw [hp] at heq
      exact Or.inr (Or.inl ⟨cur, rfl, hp, heq⟩)
    · rw [hp] at heq
      have heq2 : buildStep cs st i =
          (match lastIdxOf cs q with
           | none => st
           | some p =>
               match st.1.get? p with
               | none => st
               | some par => (st.1.set p (par.addReply cur), st.2)) := heq
      rcases hl : lastIdxOf cs q with _ | p
      · rw [hl] at heq2
        exact Or.inl heq2
      · rw [hl] at heq2
        have heq3 : buildStep cs st i =
            (match st.1.get? p with
             | none => st
             | some par => (st.1.set p (par.addReply cur), st.2)) := heq2
        rcases hg : st.1.get? p with _ | par
        · rw [hg] at heq3
          exact Or.inl heq3
        · rw [hg] at heq3
          exact Or.inr (Or.inr ⟨cur, q, p, par, rfl, hp, hl, hg, heq3⟩)

theorem buildLoop_length (cs : List CommentReadModel) (k : Nat) :
    (buildLoop cs k).1.length = cs.length := by
  induction k with
  | zero => simp [buildLoop]
  | succ k ih =>
    show (buildStep cs (buildLoop cs k) k).1.length = cs.length
    rcases buildStep_cases cs (buildLoop cs k) k with h | ⟨cur, _, _, h⟩ |
      ⟨cur, q, p, par, _, _, _, _, h⟩ <;> rw [h]
    · exact ih
    · exact ih
    · rw [List.length_set]; exact ih

theorem buildLoop_slot (cs : List CommentReadModel) (k i : Nat)
    (c : CommentReadModel) (hc : cs.get? i = some c) :
    ∃ rs, (buildLoop cs k).1.get? i = some (TreeNode.node c.id c.parentId rs) := by
  induction k with
  | zero =>
    refine ⟨[], ?_⟩
    show (cs.map (fun c => TreeNode.node c.id c.parentId [])).get? i = _
    rw [List.get?_map, hc]
    rfl
  | succ k ih =>
    obtain ⟨rs, hrs⟩ := ih
    show ∃ rs, (buildStep cs (buildLoop cs k) k).1.get? i = _
    rcases buildStep_cases cs (buildLoop cs k) k with h | ⟨cur, _, _, h⟩ |
      ⟨cur, q, p, par, hcur, hpid, hl, hpar, h⟩
    · rw [h]; exact ⟨rs, hrs⟩
    · rw [h]; exact ⟨rs, hrs⟩
    · rw [h]
      by_cases hpi : p = i
      · subst hpi
        have hpareq : par = TreeNode.node c.id c.parentId rs :=
          Option.some.inj (hpar.symm.trans hrs)
        refine ⟨rs ++ [cur], ?_⟩
        show ((buildLoop cs k).1.set p (par.addReply cur)).get? p = _
        rw [List.get?_set, if_pos rfl, hrs, hpareq]
        rfl
      · refine ⟨rs, ?_⟩
        show ((buildLoop cs k).1.set p (par.addReply cur)).get? i = _
        rw [List.get?_set, if_neg hpi]
        exact hrs

theorem containsPair_node (i : String) (q : Option String) (rs : List TreeNode)
    (p c : String) :
    TreeNode.containsPair (TreeNode.node i q rs) p c =
      ((i = p && rs.any (fun r => r.nid = c)) || rs.any (fun r => r.containsPair p c)) := by
  rw [TreeNode.containsPair]
  congr 1
  rw [Bool.eq_iff_iff]
  simp only [List.any_eq_true, List.mem_attach, true_and, Subtype.exists]
  constructor
  · rintro ⟨a, ha, hc⟩
    exact ⟨a, ha, hc⟩
  · rintro ⟨a, ha, hc⟩
    exact ⟨a, ha, hc⟩

theorem containsPair_addReply (t x : TreeNode) (p c : String)
    (h : t.containsPair p c = true) : (t.addReply x).containsPair p c = true := by
  rcases t with ⟨i, q, rs⟩
  rw [containsPair_node] at h
  show (TreeNode.node i q (rs ++ [x])).containsPair p c = true
  rw [containsPair_node]
  rcases Bool.or_eq_true_iff.mp h with h1 | h2
  · rcases Bool.and_eq_true_iff.mp h1 with ⟨hi, hf⟩
    simp [hi, List.any_append, hf]
  · simp [List.any_append, h2]

theorem containsPair_addReply_child (t x : TreeNode) (p c : String)
    (h : x.containsPair p c = true) : (t.addReply x).containsPair p c = true := by
  rcases t with ⟨i, q, rs⟩
  show (TreeNode.node i q (rs ++ [x])).containsPair p c = true
  rw [containsPair_node]
  simp [List.any_append, h]

theorem containsPair_direct (t x : TreeNode) (p c : String)
    (ht : t.nid = p) (hx : x.nid = c) :
    (t.addReply x).containsPair p c = true := by
  rcases t with ⟨i, q, rs⟩
  show (TreeNode.node i q (rs ++ [x])).containsPair p c = true
  rw [containsPair_node]
  have hi : i = p := ht
  simp [hi, List.any_append, hx]

theorem forestContainsPair_of_mem (f : List TreeNode) (t : TreeNode) (ht : t ∈ f)
    (p c : String) (h : t.containsPair p c = true) :
    forestContainsPair f p c = true := by
  unfold forestContainsPair
  rw [List.any_eq_true]
  exact ⟨t, ht, h⟩

theorem slotPair_step (cs : List CommentReadModel) (st : List TreeNode × List TreeNode)
    (i j : Nat) (p c : String) (h : slotPair st.1 j p c) :
    slotPair (buildStep cs st i).1 j p c := by
  obtain ⟨t, hget, hpair⟩ := h
  rcases buildStep_cases cs st i with heq | ⟨cur, _, _, heq⟩ |
    ⟨cur, q, pp, par, hcur, hq, hl, hpar, heq⟩
  · rw [heq]; exact ⟨t, hget, hpair⟩
  · rw [heq]; exact ⟨t, hget, hpair⟩
  · rw [heq]
    by_cases hpj : pp = j
    · subst hpj
      have hteq : t = par := Option.some.inj (hget.symm.trans hpar)
      refine ⟨par.addReply cur, ?_, ?_⟩
      · show (st.1.set pp (par.addReply cur)).get? pp = _
        rw [List.get?_set, if_pos rfl, hpar]
        rfl
      · exact containsPair_addReply par cur p c (hteq ▸ hpair)
    · refine ⟨t, ?_, hpair⟩
      show (st.1.set pp (par.addReply cur)).get? j = _
      rw [List.get?_set, if_neg hpj]
      exact hget

theorem slotPair_mono (cs : List CommentReadModel) (j : Nat) (p c : String)
    (k m : Nat) (hkm : k ≤ m) (h : slotPair (buildLoop cs k).1 j p c) :
    slotPair (buildLoop cs m).1 j p c := by
  induction m with
  | zero =>
    have : k = 0 := Nat.le_zero.mp hkm
    subst this
    exact h
  | succ m ih =>
    rcases Nat.eq_or_lt_of_le hkm with rfl | hlt
    · exact h
    · have h2 := ih (Nat.lt_succ_iff.mp hlt)
      exact slotPair_step cs (buildLoop cs m) m j p c h2

theorem buildLoop_roots_mono (cs : List CommentReadModel) (k m : Nat) (hkm : k ≤ m) :
    ∃ ts, (buildLoop cs m).2 = (buildLoop cs k).2 ++ ts := by
  induction m with
  | zero =>
    have : k = 0 := Nat.le_zero.mp hkm
    subst this
    exact ⟨[], by simp⟩
  | succ m ih =>
    rcases Nat.eq_or_lt_of_le hkm with rfl | hlt
    · exact ⟨[], by simp⟩
    · obtain ⟨ts, hts⟩ := ih (Nat.lt_succ_iff.mp hlt)
      show ∃ ts2, (buildStep cs (buildLoop cs m) m).2 = _
      rcases buildStep_cases cs (buildLoop cs m) m with heq | ⟨cur, _, _, heq⟩ |
        ⟨cur, q, pp, par, _, _, _, _, heq⟩
      · rw [heq]; exact ⟨ts, hts⟩
      · rw [heq]
        exact ⟨ts ++ [cur], by rw [show ((buildLoop cs m).1, (buildLoop cs m).2 ++ [cur]).2 =
          (buildLoop cs m).2 ++ [cur] from rfl, hts, List.append_assoc]⟩
      · rw [heq]; exact ⟨ts, hts⟩

theorem mem_roots_final (cs : List CommentReadModel) (k : Nat) (hk : k ≤ cs.length)
    (t : TreeNode) (ht : t ∈ (buildLoop cs k).2) : t ∈ buildTree cs := by
  obtain ⟨ts, hts⟩ := buildLoop_roots_mono cs k cs.length hk
  unfold buildTree
  rw [hts]
  exact List.mem_append_left ts ht

theorem childrenBeforeParents_spec (cs : List CommentReadModel)
    (H : childrenBeforeParents cs = true) (i : Nat) (a : CommentReadModel)
    (ha : cs.get? i = some a) (q : String) (hq : a.parentId = some q) :
    ∃ j, lastIdxOf cs q = some j ∧ i < j := by
  unfold childrenBeforeParents at H
  rw [List.all_eq_true] at H
  have hi : i < cs.length := (List.get?_eq_some.mp ha).1
  have h0 := H i (List.mem_range.mpr hi)
  rw [ha] at h0
  have h1 : (match a.parentId with
      | none => true
      | some p =>
          match lastIdxOf cs p with
          | none => false
          | some j => decide (i < j)) = true := h0
  rw [hq] at h1
  have h2 : (match lastIdxOf cs q with
      | none => false
      | some j => decide (i < j)) = true := h1
  rcases hl : lastIdxOf cs q with _ | j
  · rw [hl] at h2
    exact absurd (show false = true from h2) (by simp)
  · rw [hl] at h2
    exact ⟨j, rfl, of_decide_eq_true h2⟩

theorem surfacing (cs : List CommentReadModel)
    (H : childrenBeforeParents cs = true) (p c : String) :
    ∀ d j, j < cs.length → cs.length - j ≤ d →
      slotPair (buildLoop cs j).1 j p c →
      forestContainsPair (buildTree cs) p c = true := by
  intro d
  induction d with
  | zero => intro j hj hd _; omega
  | succ d ih =>
    intro j hj hd hsp
    obtain ⟨t, hget, hpair⟩ := hsp
    have hcj : ∃ cj, cs.get? j = some cj := by
      rcases h : cs.get? j with _ | cj
      · rw [List.get?_eq_none] at h; omega
      · exact ⟨cj, rfl⟩
    obtain ⟨cj, hcjeq⟩ := hcj
    obtain ⟨rs, hrs⟩ := buildLoop_slot cs j j cj hcjeq
    have hteq : t = TreeNode.node cj.id cj.parentId rs :=
      Option.some.inj (hget.symm.trans hrs)
    subst hteq
    rcases hpa : cj.parentId with _ | q
    · have heq := buildStep_eq_of_get cs (buildLoop cs j) j _ hrs
      rw [hpa] at heq
      have heq2 : buildStep cs (buildLoop cs j) j =
          ((buildLoop cs j).1,
            (buildLoop cs j).2 ++ [TreeNode.node cj.id none rs]) := heq
      have hmem : TreeNode.node cj.id none rs ∈ (buildLoop cs (j+1)).2 := by
        show TreeNode.node cj.id none rs ∈ (buildStep cs (buildLoop cs j) j).2
        rw [heq2]
        exact List.mem_append_right _ (by simp)
      have hfin := mem_roots_final cs (j+1) (by omega) _ hmem
      refine forestContainsPair_of_mem _ _ hfin p c ?_
      rw [hpa] at hpair
      exact hpair
    · obtain ⟨j2, hl2, hjj2⟩ := childrenBeforeParents_spec cs H j cj hcjeq q hpa
      have hj2n : j2 < cs.length := lastIdxOf_lt_length cs q j2 hl2
      have hparx : ∃ par, (buildLoop cs j).1.get? j2 = some par := by
        rcases h : (buildLoop cs j).1.get? j2 with _ | par
        · rw [List.get?_eq_none, buildLoop_length] at h; omega
        · exact ⟨par, rfl⟩
      obtain ⟨par, hpareq⟩ := hparx
      have heq := buildStep_eq_of_get cs (buildLoop cs j) j _ hrs
      rw [hpa] at heq
      have heq2 : buildStep cs (buildLoop cs j) j =
          (match lastIdxOf cs q with
           | none => buildLoop cs j
           | some pp =>
               match (buildLoop cs j).1.get? pp with
               | none => buildLoop cs j
               | some par => ((buildLoop cs j).1.set pp
                   (par.addReply (TreeNode.node cj.id (some q) rs)),
                 (buildLoop cs j).2)) := heq
      rw [hl2] at heq2
      have heq3 : buildStep cs (buildLoop cs j) j =
          (match (buildLoop cs j).1.get? j2 with
           | none => buildLoop cs j
           | some par => ((buildLoop cs j).1.set j2
               (par.addReply (TreeNode.node cj.id (some q) rs)),
             (buildLoop cs j).2)) := heq2
      rw [hpareq] at heq3
      have heq4 : buildStep cs (buildLoop cs j) j =
          ((buildLoop cs j).1.set j2
            (par.addReply (TreeNode.node cj.id (some q) rs)),
           (buildLoop cs j).2) := heq3
      have hsp2 : slotPair (buildLoop cs (j+1)).1 j2 p c := by
        refine ⟨par.addReply (TreeNode.node cj.id (some q) rs), ?_, ?_⟩
        · show (buildStep cs (buildLoop cs j) j).1.get? j2 = _
          rw [heq4]
          show ((buildLoop cs j).1.set j2 _).get? j2 = _
          rw [List.get?_set, if_pos rfl, hpareq]
          rfl
        · refine containsPair_addReply_child par _ p c ?_
          rw [hpa] at hpair
          exact hpair
      have hsp3 := slotPair_mono cs j2 p c (j+1) j2 hjj2 hsp2
      exact ih j2 hj2n (by omega) hsp3

theorem buildLoop_roots_spec (cs : List CommentReadModel) (k : Nat) :
    (buildLoop cs k).2.map TreeNode.nid =
      ((cs.take k).filter (fun c => c.parentId = none)).map CommentReadModel.id ∧
    ∀ t ∈ (buildLoop cs k).2, t.pid = none := by
  induction k with
  | zero =>
    refine ⟨rfl, ?_⟩
    intro t ht
    exact absurd ht (by simp [buildLoop])
  | succ k ih =>
    obtain ⟨ih1, ih2⟩ := ih
    have hstep : buildLoop cs (k+1) = buildStep cs (buildLoop cs k) k := rfl
    rcases hck : cs.get? k with _ | a
    · have hAk : (buildLoop cs k).1.get? k = none := by
        rw [List.get?_eq_none, buildLoop_length]
        exact List.get?_eq_none.mp hck
      have heq := buildStep_eq_of_none cs (buildLoop cs k) k hAk
      rw [hstep, heq]
      have htake : cs.take (k+1) = cs.take k := by
        rw [List.take_succ,
          show cs[k]? = (none : Option CommentReadModel) from
            (List.get?_eq_getElem? cs k) ▸ hck]
        simp
      rw [htake]
      exact ⟨ih1, ih2⟩
    · obtain ⟨rs, hrs⟩ := buildLoop_slot cs k k a hck
      have heq := buildStep_eq_of_get cs (buildLoop cs k) k _ hrs
      have hgetk : cs[k]? = some a := (List.get?_eq_getElem? cs k) ▸ hck
      rcases hpa : a.parentId with _ | q
      · rw [hpa] at heq
        have heq2 : buildStep cs (buildLoop cs k) k =
            ((buildLoop cs k).1,
              (buildLoop cs k).2 ++ [TreeNode.node a.id none rs]) := heq
        rw [hstep, heq2]
        constructor
        · show ((buildLoop cs k).2 ++ [TreeNode.node a.id none rs]).map TreeNode.nid = _
          rw [List.map_append, ih1, List.take_succ, hgetk]
          simp [List.filter_append, hpa, TreeNode.nid]
        · intro t ht
          rcases List.mem_append.mp ht with h1 | h2
          · exact ih2 t h1
          · rw [List.mem_singleton] at h2
            subst h2
            rfl
      · rw [hpa] at heq
        have heq2 : buildStep cs (buildLoop cs k) k =
            (match lastIdxOf cs q with
             | none => buildLoop cs k
             | some pp =>
                 match (buildLoop cs k).1.get? pp with
                 | none => buildLoop cs k
                 | some par => ((buildLoop cs k).1.set pp
                     (par.addReply (TreeNode.node a.id (some q) rs)),
                   (buildLoop cs k).2)) := heq
        have hroots : (buildLoop cs (k+1)).2 = (buildLoop cs k).2 := by
          rw [hstep, heq2]
          rcases hl : lastIdxOf cs q with _ | pp
          · rfl
          · show (match (buildLoop cs k).1.get? pp with
                | none => buildLoop cs k
                | some par => ((buildLoop cs k).1.set pp
                    (par.addReply (TreeNode.node a.id (some q) rs)),
                  (buildLoop cs k).2)).2 = (buildLoop cs k).2
            rcases hg : (buildLoop cs k).1.get? pp with _ | par
            · rfl
            · rfl
        rw [hroots]
        constructor
        · rw [ih1, List.take_succ, hgetk]
          simp [List.filter_append, hpa]
        · exact ih2

/-! ## Theorems for claim C8 -/

/-- C8 counterexample: a flat list in which the root precedes its child.
The root is copied into `roots` before the child is attached, so the
returned forest holds the root with an empty replies list and the child —
whose parent id is present in the list — appears nowhere in the result. -/
theorem buildTree_child_after_parent_lost :
    buildTree [CommentReadModel.mk "r" none, CommentReadModel.mk "c" (some "r")] =
      [TreeNode.node "r" none []] ∧
    lastIdxOf [CommentReadModel.mk "r" none, CommentReadModel.mk "c" (some "r")] "r" =
      some 0 :=
  ⟨rfl, rfl⟩

/-- C8 (amended): on a flat list where every comment's parent reference
points at a strictly later index (children before parents, the shape the
`created_at DESC` read order produces), `buildTree` returns as roots
exactly the comments with no parent reference, in list order, and every
comment whose parent id is present appears in that parent's replies
somewhere in the returned forest.  Without that ordering the property
fails (see the counterexample): a child listed after its parent is only
attached to the discarded working copy. -/
theorem buildTree_spec (cs : List CommentReadModel)
    (H : childrenBeforeParents cs = true) :
    ((buildTree cs).map TreeNode.nid =
        (cs.filter (fun c => c.parentId = none)).map CommentReadModel.id ∧
      ∀ t ∈ buildTree cs, t.pid = none) ∧
    (∀ i a q, cs.get? i = some a → a.parentId = some q →
      forestContainsPair (buildTree cs) q a.id = true) := by
  constructor
  · have h := buildLoop_roots_spec cs cs.length
    rwa [List.take_length] at h
  · intro i a q ha hq
    obtain ⟨j, hl, hij⟩ := childrenBeforeParents_spec cs H i a ha q hq
    have hjn := lastIdxOf_lt_length cs q j hl
    obtain ⟨rs, hrs⟩ := buildLoop_slot cs i i a ha
    obtain ⟨cpar, hcpar, hcparid⟩ := lastIdxOf_spec cs q j hl
    obtain ⟨rsp, hrsp⟩ := buildLoop_slot cs i j cpar hcpar
    have heq := buildStep_eq_of_get cs (buildLoop cs i) i _ hrs
    rw [hq] at heq
    have heq2 : buildStep cs (buildLoop cs i) i =
        (match lastIdxOf cs q with
         | none => buildLoop cs i
         | some pp =>
             match (buildLoop cs i).1.get? pp with
             | none => buildLoop cs i
             | some par => ((buildLoop cs i).1.set pp
                 (par.addReply (TreeNode.node a.id (some q) rs)),
               (buildLoop cs i).2)) := heq
    rw [hl] at heq2
    have heq3 : buildStep cs (buildLoop cs i) i =
        (match (buildLoop cs i).1.get? j with
         | none => buildLoop cs i
         | some par => ((buildLoop cs i).1.set j
             (par.addReply (TreeNode.node a.id (some q) rs)),
           (buildLoop cs i).2)) := heq2
    rw [hrsp] at heq3
    have heq4 : buildStep cs (buildLoop cs i) i =
        ((buildLoop cs i).1.set j
          ((TreeNode.node cpar.id cpar.parentId rsp).addReply
            (TreeNode.node a.id (some q) rs)),
         (buildLoop cs i).2) := heq3
    have hsp : slotPair (buildLoop cs (i+1)).1 j q a.id := by
      refine ⟨(TreeNode.node cpar.id cpar.parentId rsp).addReply
        (TreeNode.node a.id (some q) rs), ?_, ?_⟩
      · show (buildStep cs (buildLoop cs i) i).1.get? j = _
        rw [heq4]
        show ((buildLoop cs i).1.set j _).get? j = _
        rw [List.get?_set, if_pos rfl, hrsp]
        rfl
      · exact containsPair_direct _ _ q a.id hcparid rfl
    have hsp2 := slotPair_mono cs j q a.id (i+1) j hij hsp
    exact surfacing cs H q a.id cs.length j hjn (by omega) hsp2

/-- Witness for `buildTree_spec`: a child listed before its root parent is
attached and surfaces in the returned forest. -/
theorem buildTree_spec_witness :
    forestContainsPair (buildTree
      [CommentReadModel.mk "c" (some "r"), CommentReadModel.mk "r" none]) "r" "c" = true ∧
    (buildTree [CommentReadModel.mk "c" (some "r"), CommentReadModel.mk "r" none]).map
      TreeNode.nid = ["r"] := by
  have h := buildTree_spec
    [CommentReadModel.mk "c" (some "r"), CommentReadModel.mk "r" none] (by decide)
  refine ⟨h.2 0 (CommentReadModel.mk "c" (some "r")) "r" rfl rfl, ?_⟩
  rw [h.1.1]
  rfl

/-! ## Theorems for claim C6 -/

/-- C6: evaluating `soft_delete_comment_tree` at a root comment `r` with
child `c` and grandchild `g`.  The root's path is `""`, so the range
pattern is `".r%"`, which matches neither descendant path (`"r"`,
`"r.c"`): only the root itself is marked `DELETED`, and both descendants
remain `ACTIVE` with no deletion timestamp — contradicting the claim (and
the function's own documentation) that the whole subtree is marked. -/
theorem soft_delete_root_misses_descendants :
    soft_delete_comment_tree
      [TComment.mk "r" "t" none 0 "" 1 CommentStatus.ACTIVE none,
       TComment.mk "c" "t" (some "r") 1 "r" 1 CommentStatus.ACTIVE none,
       TComment.mk "g" "t" (some "c") 2 "r.c" 0 CommentStatus.ACTIVE none] "r" 9 =
      [TComment.mk "r" "t" none 0 "" 1 CommentStatus.DELETED (some 9),
       TComment.mk "c" "t" (some "r") 1 "r" 1 CommentStatus.ACTIVE none,
       TComment.mk "g" "t" (some "c") 2 "r.c" 0 CommentStatus.ACTIVE none] := rfl

end RedditX
